import Mathlib

/-!
Verification of the URL-to-reference rewrite engine of `intersphinx_registry`
(`rev_search.py` and `reverse_lookup.py`), as a shallow embedding over
`List Char` (Python `str`) with explicit Python-faithful semantics for the
specific regular expressions and string operations the code uses.
-/

namespace IntersphinxRegistry

/-! ## Token model (`rev_search.py`: classes `Unchanged`, `Removed`, `Added`)

Python represents tokens as `str` subclasses; `type(token)` dispatch becomes an
explicit kind tag here. -/

inductive Kind where
  | unchanged
  | removed
  | added
deriving DecidableEq, Repr

structure Token where
  kind : Kind
  text : List Char
deriving DecidableEq, Repr

def Unchanged (s : List Char) : Token := ⟨Kind.unchanged, s⟩
def Removed (s : List Char) : Token := ⟨Kind.removed, s⟩
def Added (s : List Char) : Token := ⟨Kind.added, s⟩

/-- `type(token)(content)`: rebuild a token of the same kind. -/
def mkToken (k : Kind) (s : List Char) : Token := ⟨k, s⟩

/-- Concatenation of the payloads of a token stream, in order. -/
def concatPayloads (ts : List Token) : List Char :=
  ts.foldr (fun t acc => t.text ++ acc) []

/-- The accumulator loop of `normalise_token_stream`: `cur` is
`(current_type, current_content)`, `none` when no run is open. Skips
empty-payload tokens, merges runs of equal kind, flushes on kind change and at
the end. -/
def normCore : List Token → Option (Kind × List Char) → List Token
  | [], none => []
  | [], some (k, c) => [mkToken k c]
  | t :: ts, cur =>
    if t.text = [] then normCore ts cur
    else
      match cur with
      | none => normCore ts (some (t.kind, t.text))
      | some (k, c) =>
        if t.kind = k then normCore ts (some (k, c ++ t.text))
        else mkToken k c :: normCore ts (some (t.kind, t.text))

/-- `normalise_token_stream` from `rev_search.py`. -/
def normalise_token_stream (tokens : List Token) : List Token :=
  if tokens = [] then [Unchanged []]
  else
    let normalized := normCore tokens none
    if normalized = [] then [Unchanged []] else normalized

/-! ### Structural facts about `normCore` -/

/-- Adjacent tokens of a stream have distinct kinds. -/
def KindsAlternate (ts : List Token) : Prop :=
  List.Chain' (fun a b => a.kind ≠ b.kind) ts

lemma normCore_some_props (ts : List Token) :
    ∀ k c, c ≠ [] →
      (∀ t ∈ normCore ts (some (k, c)), t.text ≠ []) ∧
      KindsAlternate (normCore ts (some (k, c))) ∧
      ∃ c2 l, normCore ts (some (k, c)) = mkToken k c2 :: l := by
  induction ts with
  | nil =>
    intro k c hc
    refine ⟨?_, ?_, c, [], rfl⟩
    · intro t ht
      simp only [normCore, List.mem_singleton] at ht
      subst ht; exact hc
    · simp [normCore, KindsAlternate]
  | cons t ts ih =>
    intro k c hc
    by_cases ht : t.text = []
    · simpa [normCore, ht] using ih k c hc
    · by_cases hk : t.kind = k
      · have := ih k (c ++ t.text) (by simp [hc])
        simpa [normCore, ht, hk] using this
      · obtain ⟨hne, hchain, c2, l, heq⟩ := ih t.kind t.text ht
        refine ⟨?_, ?_, c, mkToken t.kind c2 :: l, ?_⟩
        · intro u hu
          simp only [normCore, if_neg ht, if_neg hk, List.mem_cons] at hu
          rcases hu with h | h
          · subst h; exact hc
          · exact hne u (heq ▸ h)
        · simp only [normCore, if_neg ht, if_neg hk, KindsAlternate, heq]
          exact List.Chain'.cons (by simpa [mkToken] using Ne.symm hk) (heq ▸ hchain)
        · simp [normCore, if_neg ht, if_neg hk, heq]

lemma normCore_none_props (ts : List Token) :
    (∀ t ∈ normCore ts none, t.text ≠ []) ∧ KindsAlternate (normCore ts none) := by
  induction ts with
  | nil => simp [normCore, KindsAlternate]
  | cons t ts ih =>
    by_cases ht : t.text = []
    · simpa [normCore, ht] using ih
    · have := normCore_some_props ts t.kind t.text ht
      exact ⟨by simpa [normCore, ht] using this.1,
             by simpa [normCore, ht] using this.2.1⟩

/-- A stream that is already normalized (nonempty payloads, alternating kinds)
is a fixed point of the accumulator loop once a run is open. -/
lemma normCore_fixed (rest : List Token) :
    ∀ k c, c ≠ [] → (∀ t ∈ rest, t.text ≠ []) →
      KindsAlternate (mkToken k c :: rest) →
      normCore rest (some (k, c)) = mkToken k c :: rest := by
  induction rest with
  | nil => intro k c _ _ _; simp [normCore]
  | cons u rest ih =>
    intro k c _ hne hch
    have hu : u.text ≠ [] := hne u (by simp)
    have hk : u.kind ≠ k := by
      have := List.chain'_cons.mp hch
      exact fun h => this.1 h.symm
    have hch' : KindsAlternate (mkToken u.kind u.text :: rest) := by
      have := (List.chain'_cons.mp hch).2
      simpa [KindsAlternate, mkToken] using this
    simp only [normCore, if_neg hu, if_neg hk]
    congr 1
    exact ih u.kind u.text hu (fun t htm => hne t (by simp [htm])) hch'

/-- C5 helper: `normalise_token_stream` output is normalized or the placeholder. -/
lemma normalise_fixed_of_normalized (l : List Token) (hl : l ≠ [])
    (hne : ∀ t ∈ l, t.text ≠ []) (hch : KindsAlternate l) :
    normalise_token_stream l = l := by
  cases l with
  | nil => exact absurd rfl hl
  | cons t rest =>
    have ht : t.text ≠ [] := hne t (by simp)
    have hfix : normCore rest (some (t.kind, t.text)) = mkToken t.kind t.text :: rest :=
      normCore_fixed rest t.kind t.text ht (fun u hu => hne u (by simp [hu]))
        (by simpa [mkToken] using hch)
    have hcore : normCore (t :: rest) none = t :: rest := by
      simp only [normCore, if_neg ht]
      rw [hfix]; rfl
    simp [normalise_token_stream, hcore]

/-- **C5** — `normalise_token_stream` is idempotent: normalizing twice equals
normalizing once, element-wise and kind-wise. -/
theorem normalise_token_stream_idempotent (T : List Token) :
    normalise_token_stream (normalise_token_stream T) = normalise_token_stream T := by
  by_cases hT : T = []
  · subst hT
    simp [normalise_token_stream, normCore, Unchanged]
  · by_cases hcore : normCore T none = []
    · simp [normalise_token_stream, hT, hcore, normCore, Unchanged]
    · have hres : normalise_token_stream T = normCore T none := by
        simp [normalise_token_stream, hT, hcore]
      obtain ⟨hne, hch⟩ := normCore_none_props T
      rw [hres]
      exact normalise_fixed_of_normalized _ hcore hne hch

/-! ### Reconstruction (C6) -/

lemma concatPayloads_cons (t : Token) (ts : List Token) :
    concatPayloads (t :: ts) = t.text ++ concatPayloads ts := rfl

lemma normCore_concat (ts : List Token) :
    ∀ cur, concatPayloads (normCore ts cur) =
      (match cur with | none => [] | some (_, c) => c) ++ concatPayloads ts := by
  induction ts with
  | nil =>
    intro cur
    cases cur with
    | none => simp [normCore, concatPayloads]
    | some kc => cases kc with
      | mk k c => simp [normCore, concatPayloads, mkToken]
  | cons t ts ih =>
    intro cur
    by_cases ht : t.text = []
    · cases cur with
      | none => simp [normCore, ht, ih, concatPayloads_cons]
      | some kc => cases kc with
        | mk k c => simp [normCore, ht, ih, concatPayloads_cons]
    · cases cur with
      | none => simp [normCore, ht, ih, concatPayloads_cons]
      | some kc =>
        cases kc with
        | mk k c =>
          by_cases hk : t.kind = k
          · simp [normCore, ht, hk, ih, concatPayloads_cons]
          · simp only [normCore, if_neg ht, if_neg hk, concatPayloads_cons]
            rw [ih (some (t.kind, t.text))]
            simp [mkToken]

/-- **C6** — normalization preserves reconstruction: the concatenated payloads
of `normalise_token_stream T` equal the concatenated payloads of `T` (the
placeholder `[Unchanged []]` reconstructs the empty string). -/
theorem normalise_token_stream_preserves_concat (T : List Token) :
    concatPayloads (normalise_token_stream T) = concatPayloads T := by
  by_cases hT : T = []
  · subst hT; simp [normalise_token_stream, concatPayloads, Unchanged]
  · by_cases hcore : normCore T none = []
    · have := normCore_concat T none
      rw [hcore] at this
      simp only [normalise_token_stream, if_neg hT, hcore]
      simpa [concatPayloads, Unchanged] using this.symm
    · have := normCore_concat T none
      simp only [normalise_token_stream, if_neg hT, if_neg hcore]
      simpa using this

/-! ## Python string primitives

Python `str` is embedded as `List Char`.  The specific stdlib/`re` operations
the code uses are implemented with Python's semantics (left-to-right
non-overlapping scan for `re.sub`/`str.replace`, greedy matching where the
source patterns make backtracking irrelevant). -/

/-- `l.startswith(pat)` as a stripper: `some rest` iff `pat` is a prefix. -/
def dropStart? : List Char → List Char → Option (List Char)
  | [], l => some l
  | _ :: _, [] => none
  | p :: ps, c :: cs => if c = p then dropStart? ps cs else none

/-- `str.rstrip` for the character class `p`. -/
def pyRstrip (p : Char → Bool) (l : List Char) : List Char :=
  (l.reverse.dropWhile p).reverse

/-- `str.strip()` (whitespace on both ends); ASCII whitespace as in CPython. -/
def pyIsSpace (c : Char) : Bool :=
  c == ' ' || c == '\t' || c == '\n' || c == '\r' ||
    c == Char.ofNat 11 || c == Char.ofNat 12

def pyStrip (l : List Char) : List Char :=
  ((l.dropWhile pyIsSpace).reverse.dropWhile pyIsSpace).reverse

/-- `str.replace(pat, rep)`: replace all non-overlapping occurrences, scanning
left to right.  `fuel` bounds the scan; every use instantiates it with the
string's length, which suffices because each step consumes at least one
character (the pattern is nonempty at every use site). -/
def pyReplaceF (pat rep : List Char) : Nat → List Char → List Char
  | 0, l => l
  | _ + 1, [] => []
  | fuel + 1, c :: l =>
    match dropStart? pat (c :: l) with
    | some rest => rep ++ pyReplaceF pat rep fuel rest
    | none => c :: pyReplaceF pat rep fuel l

def pyReplace (l pat rep : List Char) : List Char := pyReplaceF pat rep l.length l

/-! ## `_normalize_url_for_matching` (`reverse_lookup.py`)

Two `re.sub` passes: `/(latest|stable|main|dev|master)/` and
`/v?\d+(\.\d+)*/`, both replaced by `/_VERSION_/`. -/

def versionKeywords : List (List Char) :=
  ["latest".toList, "stable".toList, "main".toList, "dev".toList, "master".toList]

def versionMark : List Char := "/_VERSION_/".toList

/-- Try the keyword alternation (each keyword must be followed by `/`, the
alternatives tried left to right as in the regex); returns the remainder after
the consumed match. -/
def tryKeyword : List (List Char) → List Char → Option (List Char)
  | [], _ => none
  | kw :: kws, r =>
    match dropStart? (kw ++ ['/']) r with
    | some rest => some rest
    | none => tryKeyword kws r

/-- Match `/(latest|stable|main|dev|master)/` at the head of the string. -/
def tryMatch1 : List Char → Option (List Char)
  | [] => none
  | c :: r => if c = '/' then tryKeyword versionKeywords r else none

/-- `(\.\d+)*`, greedy; backtracking cannot rescue a failed overall match
(giving back digits or iterations always leaves a non-`/` character next), so
the maximal-munch scan is faithful. -/
def dotGroups : Nat → List Char → List Char
  | 0, l => l
  | fuel + 1, l =>
    match l with
    | '.' :: r =>
      if (r.takeWhile Char.isDigit) = [] then l
      else dotGroups fuel (r.dropWhile Char.isDigit)
    | _ => l

/-- `\d+(\.\d+)*/` after the optional `v`: requires at least one digit and a
closing `/`; returns the remainder after the consumed `/`. -/
def versionTail (r : List Char) : Option (List Char) :=
  if (r.takeWhile Char.isDigit) = [] then none
  else
    match dotGroups r.length (r.dropWhile Char.isDigit) with
    | '/' :: rest => some rest
    | _ => none

/-- Match `/v?\d+(\.\d+)*/` at the head of the string.  `v?` is greedy: `v` is
consumed exactly when digits follow it (otherwise `\d+` fails either way). -/
def tryMatch2 : List Char → Option (List Char)
  | [] => none
  | c :: r =>
    if c = '/' then
      match r with
      | 'v' :: r2 => if (r2.takeWhile Char.isDigit) = [] then none else versionTail r2
      | _ => versionTail r
    else none

/-- `re.sub` scan: at each position try `tm`; on a match emit `rep` and resume
after the consumed text, else emit the character and move one position right.
`fuel` is instantiated with the string length (each step consumes ≥ 1 char). -/
def applySub (tm : List Char → Option (List Char)) (rep : List Char) :
    Nat → List Char → List Char
  | 0, l => l
  | _ + 1, [] => []
  | fuel + 1, c :: l =>
    match tm (c :: l) with
    | some rest => rep ++ applySub tm rep fuel rest
    | none => c :: applySub tm rep fuel l

def normalize_url_for_matching (url : List Char) : List Char :=
  let n1 := applySub tryMatch1 versionMark url.length url
  applySub tryMatch2 versionMark n1.length n1

/-! ## `uri_match` (`reverse_lookup.py`) -/

def idxHtml : List Char := "/index.html".toList

/-- The normalization chain applied to each side before the final comparison:
`_normalize_url_for_matching(x).rstrip("/").replace("/index.html", "")`. -/
def normForMatch (u : List Char) : List Char :=
  pyReplace (pyRstrip (· == '/') (normalize_url_for_matching u)) idxHtml []

def uri_match (user_url inv_url : List Char) : Bool :=
  if user_url = inv_url then true
  else
    let variants :=
      if idxHtml.isSuffixOf user_url then
        [user_url, user_url.take (user_url.length - 10)]
      else if ['/'].isSuffixOf user_url then
        [user_url, user_url ++ "index.html".toList]
      else [user_url, user_url ++ idxHtml]
    if inv_url ∈ variants then true
    else
      let invN := normForMatch inv_url
      variants.any (fun v => normForMatch v == invN)

/-! ### C4: normalization-tolerance properties of `uri_match` -/

lemma tryMatch1_none_of_ne_slash {c : Char} (h : c ≠ '/') (l : List Char) :
    tryMatch1 (c :: l) = none := by
  simp [tryMatch1, h]

lemma tryMatch2_none_of_ne_slash {c : Char} (h : c ≠ '/') (l : List Char) :
    tryMatch2 (c :: l) = none := by
  simp [tryMatch2, h]

/-- A `re.sub` whose pattern can only start at `/` leaves a slash-free prefix
untouched. -/
lemma applySub_append_of_no_slash (tm : List Char → Option (List Char))
    (rep : List Char) (htm : ∀ c l, c ≠ '/' → tm (c :: l) = none) :
    ∀ u s : List Char, (∀ c ∈ u, c ≠ '/') →
      applySub tm rep (u ++ s).length (u ++ s) = u ++ applySub tm rep s.length s := by
  intro u
  induction u with
  | nil => intro s _; simp
  | cons c u ih =>
    intro s hu
    have hc : c ≠ '/' := hu c (by simp)
    rw [List.cons_append, List.length_cons]
    simp only [applySub, htm c (u ++ s) hc]
    rw [ih s (fun d hd => hu d (by simp [hd]))]
    rfl

lemma normalize_append_stable (u : List Char) (hu : ∀ c ∈ u, c ≠ '/') :
    normalize_url_for_matching (u ++ "/stable/x".toList) =
      u ++ "/_VERSION_/x".toList := by
  have h1 : applySub tryMatch1 versionMark (u ++ "/stable/x".toList).length
      (u ++ "/stable/x".toList) = u ++ "/_VERSION_/x".toList := by
    rw [applySub_append_of_no_slash tryMatch1 versionMark
      (fun c l h => tryMatch1_none_of_ne_slash h l) u _ hu]
    congr 1
  rw [normalize_url_for_matching, h1]
  rw [applySub_append_of_no_slash tryMatch2 versionMark
    (fun c l h => tryMatch2_none_of_ne_slash h l) u _ hu]
  congr 1

lemma normalize_append_v20 (u : List Char) (hu : ∀ c ∈ u, c ≠ '/') :
    normalize_url_for_matching (u ++ "/v2.0/x".toList) =
      u ++ "/_VERSION_/x".toList := by
  have h1 : applySub tryMatch1 versionMark (u ++ "/v2.0/x".toList).length
      (u ++ "/v2.0/x".toList) = u ++ "/v2.0/x".toList := by
    rw [applySub_append_of_no_slash tryMatch1 versionMark
      (fun c l h => tryMatch1_none_of_ne_slash h l) u _ hu]
    congr 1
  rw [normalize_url_for_matching, h1]
  rw [applySub_append_of_no_slash tryMatch2 versionMark
    (fun c l h => tryMatch2_none_of_ne_slash h l) u _ hu]
  congr 1

/-- **C4 (amended)** — `uri_match` tolerance: reflexivity and
`/index.html`-vs-`/` hold for every string `u`; the version-placeholder
property `uri_match (u ++ "/stable/x") (u ++ "/v2.0/x")` holds for every `u`
containing no `/` (the original unconditional claim fails, see the
counterexample: version normalization can fire inside `u` on one side only). -/
theorem uri_match_tolerance (u : List Char) :
    uri_match u u = true ∧
    uri_match (u ++ idxHtml) (u ++ ['/']) = true ∧
    ((∀ c ∈ u, c ≠ '/') →
      uri_match (u ++ "/stable/x".toList) (u ++ "/v2.0/x".toList) = true) := by
  refine ⟨by simp [uri_match], ?_, ?_⟩
  · have hne : u ++ idxHtml ≠ u ++ ['/'] := by
      intro h
      exact absurd (List.append_cancel_left h) (by decide)
    have hends : idxHtml.isSuffixOf (u ++ idxHtml) = true := by
      rw [List.isSuffixOf_iff_suffix]; exact ⟨u, rfl⟩
    have htake : (u ++ idxHtml).take ((u ++ idxHtml).length - 10) = u ++ ['/'] := by
      have hlen : (u ++ idxHtml).length - 10 = u.length + 1 := by
        simp [idxHtml]
      rw [hlen]
      have := @List.take_append Char u idxHtml 1
      simpa [idxHtml] using this
    have hmem : u ++ ['/'] ∈ [u ++ idxHtml, (u ++ idxHtml).take ((u ++ idxHtml).length - 10)] := by
      rw [htake]; simp
    simp only [uri_match, if_neg hne, hends, if_pos, hmem, if_true, ite_true]
  · intro hu
    have hne : u ++ "/stable/x".toList ≠ u ++ "/v2.0/x".toList := by
      intro h
      exact absurd (List.append_cancel_left h) (by decide)
    have hlast : (u ++ "/stable/x".toList).getLast? = some 'x' := by
      rw [List.getLast?_append_of_ne_nil u (by decide)]; decide
    have hends1 : idxHtml.isSuffixOf (u ++ "/stable/x".toList) = false := by
      by_contra h
      have hsuf : idxHtml <:+ (u ++ "/stable/x".toList) := by
        rw [← List.isSuffixOf_iff_suffix]
        exact Bool.of_not_eq_false h
      obtain ⟨t, ht⟩ := hsuf
      have : (u ++ "/stable/x".toList).getLast? = some 'l' := by
        rw [← ht, List.getLast?_append_of_ne_nil t (by decide)]; decide
      rw [hlast] at this
      exact absurd (Option.some.inj this) (by decide)
    have hends2 : (['/'] : List Char).isSuffixOf (u ++ "/stable/x".toList) = false := by
      by_contra h
      have hsuf : ['/'] <:+ (u ++ "/stable/x".toList) := by
        rw [← List.isSuffixOf_iff_suffix]
        exact Bool.of_not_eq_false h
      obtain ⟨t, ht⟩ := hsuf
      have : (u ++ "/stable/x".toList).getLast? = some '/' := by
        rw [← ht, List.getLast?_append_of_ne_nil t (by decide)]; decide
      rw [hlast] at this
      exact absurd (Option.some.inj this) (by decide)
    have hnotmem : u ++ "/v2.0/x".toList ∉
        [u ++ "/stable/x".toList, u ++ "/stable/x".toList ++ idxHtml] := by
      intro h
      rcases List.mem_cons.mp h with h | h
      · exact absurd (List.append_cancel_left h) (by decide)
      · rcases List.mem_cons.mp h with h | h
        · rw [List.append_assoc] at h
          exact absurd (List.append_cancel_left h) (by decide)
        · simp at h
    have hnorm : normForMatch (u ++ "/stable/x".toList) =
        normForMatch (u ++ "/v2.0/x".toList) := by
      unfold normForMatch
      rw [normalize_append_stable u hu, normalize_append_v20 u hu]
    simp only [uri_match, if_neg hne, hends1, hends2, Bool.false_eq_true, if_false,
      if_neg hnotmem, List.any_cons, hnorm, beq_self_eq_true, Bool.true_or]

/-- Witness for the amended C4 at a concrete slash-free `u`. -/
theorem uri_match_tolerance_witness :
    uri_match ("abc".toList) ("abc".toList) = true ∧
    uri_match ("abc".toList ++ idxHtml) ("abc".toList ++ ['/']) = true ∧
    uri_match ("abc".toList ++ "/stable/x".toList)
      ("abc".toList ++ "/v2.0/x".toList) = true :=
  ⟨(uri_match_tolerance ("abc".toList)).1,
   (uri_match_tolerance ("abc".toList)).2.1,
   (uri_match_tolerance ("abc".toList)).2.2 (by decide)⟩

/-- **C4 counterexample** — with `u = "a/2"` the claimed property
`uri_match (u ++ "/stable/x") (u ++ "/v2.0/x")` is false: the second `re.sub`
rewrites `/2/` on the `stable` side (after `/stable/` became `/_VERSION_/`)
but cannot rewrite it on the `v2.0` side, where `/2/v2.0/` overlaps. -/
theorem uri_match_version_claim_false :
    uri_match ("a/2/stable/x".toList) ("a/2/v2.0/x".toList) = false := by
  decide

/-! ## `ReverseLookupResult` (`reverse_lookup.py`) and replacement contexts -/

structure ReverseLookupResult where
  url : List Char
  package : Option (List Char)
  domain : Option (List Char)
  rst_entry : Option (List Char)
  display_name : Option (List Char)
  inventory_url : Option (List Char)
deriving DecidableEq, Repr

/-- Python f-string rendering of an optional field (`None` prints as "None");
the claims only use it with `some` values. -/
def optStr : Option (List Char) → List Char
  | some s => s
  | none => "None".toList

abbrev OutputReplacementContext := List Token × List Token × List Token

structure ReplacementContext where
  context_before : List Char
  target_line : List Char
  context_after : List Char
deriving DecidableEq, Repr

/-- The backtick character (96), kept out of character literals. -/
def btick : Char := Char.ofNat 96

/-- Python slice `l[a:b]`. -/
def pySlice (l : List Char) (a b : Nat) : List Char := (l.take b).drop a

/-- `_make_line_tokens` from `rev_search.py`. -/
def make_line_tokens (line : List Char) (start stop : Nat)
    (old_text new_text : List Char) : List Token × List Token :=
  let prefixToks : List Token :=
    if 0 < start then [Unchanged (line.take start)] else []
  let suffixToks : List Token :=
    if stop < line.length then [Unchanged (line.drop stop)] else []
  (prefixToks ++ [Removed old_text] ++ suffixToks,
   prefixToks ++ [Added new_text] ++ suffixToks)

/-- `_normalize_replacement` from `rev_search.py`. -/
def normalize_replacement (context_old context_new : OutputReplacementContext) :
    OutputReplacementContext × OutputReplacementContext :=
  ((normalise_token_stream context_old.1, normalise_token_stream context_old.2.1,
    normalise_token_stream context_old.2.2),
   (normalise_token_stream context_new.1, normalise_token_stream context_new.2.1,
    normalise_token_stream context_new.2.2))

/-- `_make_replacement` from `rev_search.py`. -/
def make_replacement (context_before context_after : List Char)
    (target_tokens_old target_tokens_new : List Token) :
    OutputReplacementContext × OutputReplacementContext :=
  normalize_replacement
    ([Unchanged context_before], target_tokens_old, [Unchanged context_after])
    ([Unchanged context_before], target_tokens_new, [Unchanged context_after])

/-! ## Pattern matchers

Each `re.search` is embedded as a head matcher tried at every start position,
leftmost first.  For these specific patterns greedy maximal-munch without
backtracking is faithful: every sub-pattern's character set is disjoint from
the character required next, so giving back characters can never rescue a
failed match (argued at each definition). -/

def puncts : List Char := ".,;:!?)".toList

def isPunct (c : Char) : Bool := puncts.contains c

/-- `re.search` scan: try the head matcher `f` at every position, leftmost
first; returns the match start paired with the matcher's payload. -/
def searchAux {α : Type} (f : List Char → Option α) : List Char → Nat → Option (Nat × α)
  | l, i =>
    match f l with
    | some a => some (i, a)
    | none =>
      match l with
      | [] => none
      | _ :: t => searchAux f t (i + 1)

/-- Head matcher for the full-link pattern
`` `([^`<>]+)\s*<URL[.,;:!?)]*>`__? ``; returns `(match_length, group 1)`.
Group 1 excludes `` ` ``/`<`/`>` and subsumes `\s*`, so it stops exactly at the
first such character; if that character is not `<` or the literal URL does not
follow it, no backtracking split of group1/`\s*` can move the `<` anchor, and
the match at this position fails. -/
def fullLinkAt (url : List Char) (l : List Char) : Option (Nat × List Char) :=
  match l with
  | c :: r =>
    if c = btick then
      let cls : Char → Bool := fun d => !(d == btick || d == '<' || d == '>')
      let a := r.takeWhile cls
      if a = [] then none
      else
        match r.dropWhile cls with
        | d :: r3 =>
          if d = '<' then
            match dropStart? url r3 with
            | some r4 =>
              let punct := r4.takeWhile isPunct
              match r4.dropWhile isPunct with
              | g :: b :: u1 :: rest =>
                if g = '>' ∧ b = btick ∧ u1 = '_' then
                  let extra : Nat :=
                    match rest with
                    | e :: _ => if e = '_' then 1 else 0
                    | [] => 0
                  some (1 + a.length + 1 + url.length + punct.length + 3 + extra, a)
                else none
              | _ => none
            | none => none
          else none
        | [] => none
    else none
  | [] => none

/-- Head matcher for `<URL[.,;:!?)]*>` (the URL-locating search inside a
matched full link); returns the match length. -/
def urlInLinkAt (url : List Char) (l : List Char) : Option Nat :=
  match l with
  | c :: r =>
    if c = '<' then
      match dropStart? url r with
      | some r2 =>
        let punct := r2.takeWhile isPunct
        match r2.dropWhile isPunct with
        | d :: _ => if d = '>' then some (1 + url.length + punct.length + 1) else none
        | [] => none
      | none => none
    else none
  | [] => none

/-- `_compute_full_link_replacement` from `rev_search.py`. -/
def compute_full_link_replacement
    (original_line context_before_str context_after_str : List Char)
    (lookup_result : ReverseLookupResult) (target : List Char) :
    Option (OutputReplacementContext × OutputReplacementContext) :=
  match searchAux (fullLinkAt lookup_result.url) original_line 0 with
  | none => none
  | some (start_idx, mlen, a) =>
    let link_text := pyStrip a
    let original_text := (original_line.drop start_idx).take mlen
    let end_idx := start_idx + mlen
    let domain_prefix := ':' :: optStr lookup_result.domain ++ [':']
    let prefixToks : List Token :=
      if 0 < start_idx then [Unchanged (original_line.take start_idx)] else []
    let suffixToks : List Token :=
      if end_idx < original_line.length then [Unchanged (original_line.drop end_idx)] else []
    match searchAux (urlInLinkAt lookup_result.url) original_text 0 with
    | some (url_start, url_mlen) =>
      let url_end := url_start + url_mlen
      let space_before : List Char :=
        if 0 < url_start ∧ original_text.getD (url_start - 1) (Char.ofNat 0) = ' '
        then [' '] else []
      let after_angle := original_text.drop url_end
      let afterAngleToks : List Token :=
        match after_angle with
        | b :: rest2 =>
          if b = btick then
            Unchanged [b] :: (if rest2 = [] then [] else [Removed rest2])
          else [Removed after_angle]
        | [] => [Removed []]
      let old_tokens := prefixToks ++
        [Unchanged (original_text.take (url_start + 1)),
         Removed (pySlice original_text (url_start + 1) (url_end - 1)),
         Unchanged (pySlice original_text (url_end - 1) url_end)] ++
        afterAngleToks ++ suffixToks
      let new_tokens := prefixToks ++
        [Added domain_prefix,
         Unchanged (btick :: link_text ++ space_before ++ ['<']),
         Added target,
         Unchanged ['>', btick]] ++ suffixToks
      some (normalize_replacement
        ([Unchanged context_before_str], old_tokens, [Unchanged context_after_str])
        ([Unchanged context_before_str], new_tokens, [Unchanged context_after_str]))
    | none =>
      let old_tokens := prefixToks ++ [Removed original_text] ++ suffixToks
      let new_tokens := prefixToks ++
        [Added domain_prefix,
         Unchanged (btick :: link_text),
         Added (' ' :: '<' :: target ++ ['>', btick])] ++ suffixToks
      some (normalize_replacement
        ([Unchanged context_before_str], old_tokens, [Unchanged context_after_str])
        ([Unchanged context_before_str], new_tokens, [Unchanged context_after_str]))

/-- Core of the bare-link pattern, without the optional leading backtick:
`<URL[.,;:!?)]*>`__?`; returns the match length. -/
def simpleCore (url : List Char) (l : List Char) : Option Nat :=
  match l with
  | c :: r =>
    if c = '<' then
      match dropStart? url r with
      | some r2 =>
        let punct := r2.takeWhile isPunct
        match r2.dropWhile isPunct with
        | g :: b :: u1 :: rest =>
          if g = '>' ∧ b = btick ∧ u1 = '_' then
            let extra : Nat :=
              match rest with
              | e :: _ => if e = '_' then 1 else 0
              | [] => 0
            some (1 + url.length + punct.length + 3 + extra)
          else none
        | _ => none
      | none => none
    else none
  | [] => none

/-- Head matcher for `` `?<URL[.,;:!?)]*>`__? ``: the optional backtick is
greedy, and when a leading backtick's tail fails the empty alternative needs
`<` at the same position (impossible), so the position fails. -/
def simpleLinkAt (url : List Char) (l : List Char) : Option Nat :=
  match l with
  | c :: _ =>
    if c = btick then
      match l with
      | _ :: r =>
        match simpleCore url r with
        | some n => some (n + 1)
        | none => none
      | [] => none
    else simpleCore url l
  | [] => none

/-- Head matcher for `` `([^`]+)$ `` on the previous context line: a backtick
whose (nonempty) remainder contains no backtick, i.e. reaches end of string.
The leftmost such position is the last backtick of the line. -/
def tickAt (l : List Char) : Option (List Char) :=
  match l with
  | c :: r =>
    if c = btick ∧ r ≠ [] ∧ r.all (fun d => !(d == btick)) = true then some r else none
  | [] => none

/-- `_compute_simple_link_replacement` from `rev_search.py`. -/
def compute_simple_link_replacement
    (original_line context_before_str context_after_str : List Char)
    (lookup_result : ReverseLookupResult) (target rst_ref : List Char) :
    Option (OutputReplacementContext × OutputReplacementContext) :=
  match searchAux (simpleLinkAt lookup_result.url) original_line 0 with
  | none => none
  | some (start_idx, mlen) =>
    let original_text := (original_line.drop start_idx).take mlen
    let end_idx := start_idx + mlen
    match searchAux tickAt context_before_str 0 with
    | some (tstart, ttext) =>
      let link_text := pyStrip ttext
      let pair1 := make_line_tokens context_before_str tstart context_before_str.length
        (pySlice context_before_str tstart context_before_str.length)
        (':' :: optStr lookup_result.domain ++ [':'] ++ [btick] ++ link_text)
      let pair2 := make_line_tokens original_line start_idx end_idx original_text
        ('<' :: target ++ ['>', btick])
      let ctx_after : List Token := [Unchanged context_after_str]
      some (normalize_replacement (pair1.1, pair2.1, ctx_after) (pair1.2, pair2.2, ctx_after))
    | none =>
      let pair := make_line_tokens original_line start_idx end_idx original_text rst_ref
      some (make_replacement context_before_str context_after_str pair.1 pair.2)

/-- Head matcher for the plain-URL fallback `URL[.,;:!?)]*`; returns the match
length (URL plus trailing punctuation). -/
def urlPunctAt (url : List Char) (l : List Char) : Option Nat :=
  match dropStart? url l with
  | some r => some (url.length + (r.takeWhile isPunct).length)
  | none => none

/-- `_compute_url_replacement` from `rev_search.py`.  Note the old-side text
passed to `make_line_tokens` is the bare URL while the span end includes the
trailing punctuation, exactly as in the source. -/
def compute_url_replacement
    (original_line context_before_str context_after_str : List Char)
    (lookup_result : ReverseLookupResult) (rst_ref : List Char) :
    OutputReplacementContext × OutputReplacementContext :=
  match searchAux (urlPunctAt lookup_result.url) original_line 0 with
  | some (start_idx, mlen) =>
    let pair := make_line_tokens original_line start_idx (start_idx + mlen)
      lookup_result.url rst_ref
    make_replacement context_before_str context_after_str pair.1 pair.2
  | none =>
    make_replacement context_before_str context_after_str
      [Removed original_line] [Added rst_ref]

/-- `f"{package}:{rst_entry}"` in `_compute_replacement`. -/
def target_of (r : ReverseLookupResult) : List Char :=
  optStr r.package ++ [':'] ++ optStr r.rst_entry

/-- ``f":{domain}:`{target}`"`` in `_compute_replacement`. -/
def rst_ref_of (r : ReverseLookupResult) : List Char :=
  ':' :: optStr r.domain ++ [':'] ++ [btick] ++ target_of r ++ [btick]

/-- `_compute_replacement` from `rev_search.py`: the ordered strategy chain. -/
def compute_replacement (original : ReplacementContext)
    (lookup_result : ReverseLookupResult) :
    OutputReplacementContext × OutputReplacementContext :=
  let target := target_of lookup_result
  let rst_ref := rst_ref_of lookup_result
  match compute_full_link_replacement original.target_line original.context_before
      original.context_after lookup_result target with
  | some result => result
  | none =>
    match compute_simple_link_replacement original.target_line original.context_before
        original.context_after lookup_result target rst_ref with
    | some result => result
    | none =>
      compute_url_replacement original.target_line original.context_before
        original.context_after lookup_result rst_ref

/-! ### C7: Scenario A (full link, single line) -/

def scenarioALine : List Char :=
  "`setuptools documentation <https://setuptools.pypa.io/en/latest/setuptools.html>`__".toList

def scenarioAResult : ReverseLookupResult :=
  ⟨"https://setuptools.pypa.io/en/latest/setuptools.html".toList,
   some ("setuptools".toList), some ("std:doc".toList), some ("setuptools".toList),
   none, some ("https://setuptools.pypa.io/en/latest/setuptools.html".toList)⟩

set_option maxRecDepth 40000 in
/-- **C7** — Scenario A: for the full-RST-link target line and the
`setuptools`/`std:doc` lookup result, the new target-line token stream of
`_compute_replacement` reconstructs to
``:std:doc:`setuptools documentation <setuptools:setuptools>` ``. -/
theorem scenario_a_new_target_reconstructs :
    concatPayloads (compute_replacement ⟨[], scenarioALine, []⟩ scenarioAResult).2.2.1 =
      ":std:doc:`setuptools documentation <setuptools:setuptools>`".toList := by
  decide

/-! ### C2: old-side reconstruction — refuted by the plain-URL fallback

`_compute_url_replacement` passes the bare URL as the removed text while the
replaced span `[start, end)` also covers the trailing punctuation matched by
`[.,;:!?)]*`; the punctuation therefore vanishes from the old-side stream. -/

def c2Line : List Char := "See https://x.org. end".toList

def c2Result : ReverseLookupResult :=
  ⟨"https://x.org".toList, some ("python".toList), some ("py:mod".toList),
   some ("os".toList), none, none⟩

set_option maxRecDepth 40000 in
/-- **C2 (refutation)** — at the target line `See https://x.org. end` with a
resolved result for `https://x.org`, the old target-line token stream of
`_compute_replacement` reconstructs to `See https://x.org end`: the trailing
`.` after the URL is lost, so old-side reconstruction is not byte-for-byte. -/
theorem c2_old_reconstruction_fails :
    concatPayloads (compute_replacement ⟨[], c2Line, []⟩ c2Result).1.2.1 ≠ c2Line := by
  decide

/-! ### C10: totality and the pathological fallback -/

lemma dropStart?_eq {p : List Char} :
    ∀ {l r : List Char}, dropStart? p l = some r → l = p ++ r := by
  induction p with
  | nil => intro l r h; simpa [dropStart?] using (by simpa [dropStart?] using h : l = r) ▸ rfl
  | cons a p ih =>
    intro l r h
    match l with
    | [] => simp [dropStart?] at h
    | c :: cs =>
      simp only [dropStart?] at h
      by_cases hc : c = a
      · rw [if_pos hc] at h
        rw [hc, List.cons_append]
        exact congrArg _ (ih h)
      · rw [if_neg hc] at h; exact absurd h (by simp)

lemma searchAux_some_suffix {α : Type} {f : List Char → Option α} :
    ∀ {l : List Char} {i : Nat} {j : Nat} {a : α},
      searchAux f l i = some (j, a) → ∃ s, s <:+ l ∧ f s = some a := by
  intro l
  induction l with
  | nil =>
    intro i j a h
    simp only [searchAux] at h
    cases hf : f [] with
    | none => rw [hf] at h; exact absurd h (by simp)
    | some b =>
      rw [hf] at h
      have hb : b = a := congrArg Prod.snd (Option.some.inj h)
      exact ⟨[], List.suffix_refl _, by rw [hf, hb]⟩
  | cons c t ih =>
    intro i j a h
    simp only [searchAux] at h
    cases hf : f (c :: t) with
    | none =>
      rw [hf] at h
      obtain ⟨s, hs, hfs⟩ := ih h
      exact ⟨s, hs.trans (List.suffix_cons c t), hfs⟩
    | some b =>
      rw [hf] at h
      have : b = a := congrArg Prod.snd (Option.some.inj h)
      exact ⟨c :: t, List.suffix_refl _, this ▸ hf⟩

lemma fullLinkAt_has_url {url s : List Char} {v : Nat × List Char}
    (h : fullLinkAt url s = some v) : url <:+: s := by
  match s with
  | [] => simp [fullLinkAt] at h
  | c :: r =>
    simp only [fullLinkAt] at h
    split at h
    case isFalse => exact absurd h (by simp)
    case isTrue =>
      split at h
      case isTrue => exact absurd h (by simp)
      case isFalse =>
        split at h
        case h_2 => exact absurd h (by simp)
        case h_1 d r3 heq =>
          split at h
          case isFalse => exact absurd h (by simp)
          case isTrue =>
            split at h
            case h_2 => exact absurd h (by simp)
            case h_1 r4 heq2 =>
              have hr3 : url <+: r3 := ⟨r4, (dropStart?_eq heq2).symm⟩
              have hsuf : r3 <:+ r := by
                have h1 : d :: r3 <:+ r := heq ▸ List.dropWhile_suffix _
                exact (List.suffix_cons d r3).trans h1
              exact (hr3.isInfix.trans hsuf.isInfix).trans (List.suffix_cons c r).isInfix

lemma simpleCore_has_url {url s : List Char} {v : Nat}
    (h : simpleCore url s = some v) : url <:+: s := by
  match s with
  | [] => simp [simpleCore] at h
  | c :: r =>
    simp only [simpleCore] at h
    split at h
    case isFalse => exact absurd h (by simp)
    case isTrue =>
      split at h
      case h_2 => exact absurd h (by simp)
      case h_1 r2 heq =>
        have hr : url <+: r := ⟨r2, (dropStart?_eq heq).symm⟩
        exact hr.isInfix.trans (List.suffix_cons c r).isInfix

lemma simpleLinkAt_has_url {url s : List Char} {v : Nat}
    (h : simpleLinkAt url s = some v) : url <:+: s := by
  match s with
  | [] => simp [simpleLinkAt] at h
  | c :: r =>
    simp only [simpleLinkAt] at h
    split at h
    case isTrue =>
      cases hc : simpleCore url r with
      | none => rw [hc] at h; exact absurd h (by simp)
      | some n =>
        rw [hc] at h
        exact (simpleCore_has_url hc).trans (List.suffix_cons c r).isInfix
    case isFalse => exact simpleCore_has_url h

lemma urlPunctAt_has_url {url s : List Char} {v : Nat}
    (h : urlPunctAt url s = some v) : url <:+: s := by
  simp only [urlPunctAt] at h
  split at h
  case h_1 r heq => exact List.IsPrefix.isInfix ⟨r, (dropStart?_eq heq).symm⟩
  case h_2 => exact absurd h (by simp)

lemma searchAux_none_of_no_url {α : Type} {url line : List Char}
    {f : List Char → Option α} (hf : ∀ s v, f s = some v → url <:+: s)
    (hni : ¬ url <:+: line) : searchAux f line 0 = none := by
  cases h : searchAux f line 0 with
  | none => rfl
  | some p =>
    obtain ⟨s, hs, hfs⟩ :=
      @searchAux_some_suffix _ f line 0 p.1 p.2 (by rw [h])
    exact absurd ((hf s p.2 hfs).trans hs.isInfix) hni

lemma normalise_singleton_of_ne_nil (k : Kind) {c : List Char} (hc : c ≠ []) :
    normalise_token_stream [mkToken k c] = [mkToken k c] := by
  apply normalise_fixed_of_normalized
  · simp
  · intro t ht; simp only [List.mem_singleton] at ht; subst ht; exact hc
  · simp [KindsAlternate]

/-- **C10 (amended)** — `_compute_replacement` is total by construction; when
the URL text occurs nowhere in the target line, all three strategies fail and
the fallback yields, for a nonempty line, the entire line as the single
`Removed` old target token and the role-reference string as the sole `Added`
new target token.  (For the empty line the original claim fails: stream
normalization rewrites `Removed ""` into the `Unchanged ""` placeholder — see
the counterexample.) -/
theorem compute_replacement_pathological (ctx : ReplacementContext)
    (res : ReverseLookupResult)
    (hni : ¬ res.url <:+: ctx.target_line) (hline : ctx.target_line ≠ []) :
    (compute_replacement ctx res).1.2.1 = [Removed ctx.target_line] ∧
    (compute_replacement ctx res).2.2.1 = [Added (rst_ref_of res)] := by
  have hfull : searchAux (fullLinkAt res.url) ctx.target_line 0 = none :=
    searchAux_none_of_no_url (fun s v h => fullLinkAt_has_url h) hni
  have hsimple : searchAux (simpleLinkAt res.url) ctx.target_line 0 = none :=
    searchAux_none_of_no_url (fun s v h => simpleLinkAt_has_url h) hni
  have hurl : searchAux (urlPunctAt res.url) ctx.target_line 0 = none :=
    searchAux_none_of_no_url (fun s v h => urlPunctAt_has_url h) hni
  have hrst : rst_ref_of res ≠ [] := by simp [rst_ref_of]
  constructor
  · simp only [compute_replacement, compute_full_link_replacement, hfull,
      compute_simple_link_replacement, hsimple, compute_url_replacement, hurl,
      make_replacement, normalize_replacement]
    exact normalise_singleton_of_ne_nil Kind.removed hline
  · simp only [compute_replacement, compute_full_link_replacement, hfull,
      compute_simple_link_replacement, hsimple, compute_url_replacement, hurl,
      make_replacement, normalize_replacement]
    exact normalise_singleton_of_ne_nil Kind.added hrst

/-- Witness for the amended C10 at a concrete input whose URL occurs nowhere
in the (nonempty) target line. -/
theorem compute_replacement_pathological_witness :
    (compute_replacement ⟨[], "nothing here".toList, []⟩
      ⟨"https://x.org".toList, some ("p".toList), some ("d".toList),
       some ("e".toList), none, none⟩).1.2.1 =
      [Removed ("nothing here".toList)] ∧
    (compute_replacement ⟨[], "nothing here".toList, []⟩
      ⟨"https://x.org".toList, some ("p".toList), some ("d".toList),
       some ("e".toList), none, none⟩).2.2.1 =
      [Added (rst_ref_of ⟨"https://x.org".toList, some ("p".toList),
        some ("d".toList), some ("e".toList), none, none⟩)] :=
  compute_replacement_pathological
    ⟨[], "nothing here".toList, []⟩
    ⟨"https://x.org".toList, some ("p".toList), some ("d".toList),
     some ("e".toList), none, none⟩
    (by decide) (by decide)

/-- **C10 counterexample** — at the empty target line (URL `"x"` occurs
nowhere in it) the old target stream is `[Unchanged ""]`, not the claimed
"entire line as a single Removed token". -/
theorem compute_replacement_empty_line_not_removed :
    (compute_replacement ⟨[], [], []⟩
      ⟨['x'], some ("p".toList), some ("d".toList), some ("e".toList),
       none, none⟩).1.2.1 ≠ [Removed []] := by
  decide

/-! ## `_do_reverse_lookup` (`reverse_lookup.py`)

Out-of-scope collaborators are parameters: `registry.json` (data outside the
source tree) is an association list preserving JSON object order, the
`urllib.parse` helpers are a `UrlLib` record, and the HTTP fetch + Sphinx
inventory parse is `fetch : List Char → Option Inventory` (`none` = the
`try` block raised). -/

structure RegistryEntry where
  package : List Char
  base_url : List Char
  /-- Registered inventory path; `[]` plays Python's falsy `obj_path`, which
  falls back to `objects.inv`. -/
  obj_path : List Char
deriving DecidableEq, Repr

structure UrlLib where
  urljoin : List Char → List Char → List Char
  netloc : List Char → List Char
  path : List Char → List Char

structure InvItem where
  proj : List Char
  ver : List Char
  uri : List Char
  display_name : List Char
deriving DecidableEq, Repr

/-- `InventoryFile.load` output: domain-qualified key ↦ (entry ↦ item), as
insertion-ordered association lists. -/
abbrev Inventory := List (List Char × List (List Char × InvItem))

/-- Python dict assignment `m[k] = v`: overwrite in place keeping the original
insertion position, else append. -/
def updateOrAppend {β : Type} (m : List (List Char × β)) (k : List Char) (v : β) :
    List (List Char × β) :=
  match m with
  | [] => [(k, v)]
  | (k0, v0) :: rest =>
    if k0 = k then (k0, v) :: rest else (k0, v0) :: updateOrAppend rest k v

/-- The `inv_urls` flattening loop: uri ↦ (key, entry, display_name). -/
def flattenInv (inv : Inventory) : List (List Char × (List Char × List Char × List Char)) :=
  inv.foldl (fun acc kv =>
    kv.2.foldl (fun acc2 ev =>
      updateOrAppend acc2 ev.2.uri (kv.1, ev.1, ev.2.display_name)) acc) []

/-- The per-URL package attribution of `_do_reverse_lookup`: first a registry
scan for a base-URL string prefix (registry order, first match), then a scan
comparing network locations and version-normalized path prefixes. -/
def matchedPackage (U : UrlLib) (registry : List RegistryEntry) (url : List Char) :
    Option RegistryEntry :=
  match registry.find? (fun e => e.base_url.isPrefixOf url) with
  | some e => some e
  | none =>
    let url_domain := U.netloc url
    let url_path_normalized :=
      pyReplace (pyRstrip (· == '/') (normalize_url_for_matching (U.path url))) idxHtml []
    registry.find? (fun e =>
      U.netloc e.base_url == url_domain &&
        (let base_path_normalized :=
          pyRstrip (· == '/') (normalize_url_for_matching (U.path e.base_url))
         url_path_normalized.isPrefixOf base_path_normalized ||
           base_path_normalized.isPrefixOf url_path_normalized))

/-- `dict.setdefault(p, []).append(u)` on an insertion-ordered association
list of groups. -/
def appendToGroup {β : Type} (groups : List (List Char × List β)) (p : List Char)
    (u : β) : List (List Char × List β) :=
  match groups with
  | [] => [(p, [u])]
  | (q, L) :: rest =>
    if q = p then (q, L ++ [u]) :: rest else (q, L) :: appendToGroup rest p u

/-- The `package_urls` partitioning loop of `_do_reverse_lookup`; URLs that
match no package are dropped. -/
def buildGroups (U : UrlLib) (registry : List RegistryEntry)
    (urls : List (List Char)) : List (List Char × List (List Char)) :=
  urls.foldl (fun groups url =>
    match matchedPackage U registry url with
    | some e => appendToGroup groups e.package url
    | none => groups) []

/-- `registry[package]`; for group keys the lookup always succeeds (Python
would raise `KeyError` otherwise), so the default is never reached there. -/
def registryGet (registry : List RegistryEntry) (p : List Char) : List Char × List Char :=
  match registry.find? (fun e => e.package == p) with
  | some e => (e.base_url, e.obj_path)
  | none => ([], [])

def objectsInv : List Char := "objects.inv".toList

/-- `urljoin(base_url, obj_path if obj_path else "objects.inv")`. -/
def invUrlOf (U : UrlLib) (registry : List RegistryEntry) (p : List Char) : List Char :=
  let bo := registryGet registry p
  U.urljoin bo.1 (if bo.2 = [] then objectsInv else bo.2)

/-- The non-fatal `warnings.warn` on a failed inventory fetch. -/
structure FetchWarning where
  package : List Char
  inv_url : List Char
deriving DecidableEq, Repr

/-- `ReverseLookupResult(url, package, None, None, None, None)`: emitted both
when the inventory fetch fails and when no inventory URI matches. -/
def failResult (p u : List Char) : ReverseLookupResult :=
  ⟨u, some p, none, none, none, none⟩

/-- The first inventory URI matching the URL under `uri_match`, inventory
order. -/
def findInvMatch (inv_urls : List (List Char × (List Char × List Char × List Char)))
    (u : List Char) : Option (List Char × (List Char × List Char × List Char)) :=
  inv_urls.find? (fun kv => uri_match u kv.1)

/-- The per-package loop body of `_do_reverse_lookup`: fetch the package's
inventory once; on failure a result per URL with only `package` set plus a
warning, on success the first `uri_match` hit per URL (or the same
package-only result when none matches). -/
def processGroup (U : UrlLib) (registry : List RegistryEntry)
    (fetch : List Char → Option Inventory) (g : List Char × List (List Char)) :
    List ReverseLookupResult × List FetchWarning :=
  let inv_url := invUrlOf U registry g.1
  match fetch inv_url with
  | none => (g.2.map (fun u => failResult g.1 u), [⟨g.1, inv_url⟩])
  | some inv =>
    let inv_urls := flattenInv inv
    (g.2.map (fun u =>
      match findInvMatch inv_urls u with
      | some kv => ⟨u, some g.1, some kv.2.1, some kv.2.2.1, some kv.2.2.2, some kv.1⟩
      | none => failResult g.1 u), [])

/-- `_do_reverse_lookup`: partition the input URLs by package, then run the
per-package loop, concatenating results and warnings in group order. -/
def do_reverse_lookup (U : UrlLib) (registry : List RegistryEntry)
    (fetch : List Char → Option Inventory) (urls : List (List Char)) :
    List ReverseLookupResult × List FetchWarning :=
  let groups := buildGroups U registry urls
  (groups.flatMap (fun g => (processGroup U registry fetch g).1),
   groups.flatMap (fun g => (processGroup U registry fetch g).2))

/-! ### C1: one result per *matched* input URL -/

lemma processGroup_urls (U : UrlLib) (registry : List RegistryEntry)
    (fetch : List Char → Option Inventory) (g : List Char × List (List Char)) :
    (processGroup U registry fetch g).1.map ReverseLookupResult.url = g.2 := by
  cases hf : fetch (invUrlOf U registry g.1) with
  | none =>
    simp only [processGroup, hf, List.map_map]
    exact Eq.trans (List.map_congr_left (fun u _ => rfl)) (List.map_id g.2)
  | some inv =>
    simp only [processGroup, hf, List.map_map]
    refine Eq.trans (List.map_congr_left ?_) (List.map_id g.2)
    intro u _
    simp only [Function.comp_apply, id]
    cases findInvMatch (flattenInv inv) u with
    | none => rfl
    | some kv => rfl

/-- All URLs stored in the groups, in group order. -/
def groupUrls (groups : List (List Char × List (List Char))) : List (List Char) :=
  groups.flatMap (fun g => g.2)

lemma appendToGroup_urls_perm (p : List Char) (u : List Char) :
    ∀ groups : List (List Char × List (List Char)),
      (groupUrls (appendToGroup groups p u)).Perm (groupUrls groups ++ [u]) := by
  intro groups
  induction groups with
  | nil => simp [appendToGroup, groupUrls]
  | cons g rest ih =>
    obtain ⟨q, L⟩ := g
    by_cases hq : q = p
    · simp only [appendToGroup, if_pos hq, groupUrls, List.flatMap_cons,
        List.append_assoc]
      exact List.Perm.append_left L List.perm_append_comm
    · simp only [appendToGroup, if_neg hq, groupUrls, List.flatMap_cons]
      simp only [groupUrls] at ih
      simpa [List.append_assoc] using ih.append_left L

lemma buildGroups_urls_perm (U : UrlLib) (registry : List RegistryEntry) :
    ∀ (urls : List (List Char)) (groups : List (List Char × List (List Char))),
      (groupUrls (urls.foldl (fun gs url =>
        match matchedPackage U registry url with
        | some e => appendToGroup gs e.package url
        | none => gs) groups)).Perm
      (groupUrls groups ++ urls.filter (fun u => (matchedPackage U registry u).isSome)) := by
  intro urls
  induction urls with
  | nil => intro groups; simp
  | cons u urls ih =>
    intro groups
    cases hm : matchedPackage U registry u with
    | none =>
      simp only [List.foldl_cons, hm, List.filter_cons, Option.isSome_none,
        Bool.false_eq_true, if_false]
      exact ih groups
    | some e =>
      simp only [List.foldl_cons, hm, List.filter_cons, Option.isSome_some, if_true]
      refine (ih (appendToGroup groups e.package u)).trans ?_
      refine (List.Perm.append_right _ (appendToGroup_urls_perm e.package u groups)).trans ?_
      rw [List.append_assoc]
      exact List.Perm.refl _

/-- **C1 (amended)** — `_do_reverse_lookup` returns exactly one
`ReverseLookupResult` per input URL *that matches some registry package*
(duplicates each producing their own result): the multiset of result URLs is
exactly the matched input URLs.  URLs matching no package are excluded from
the inventory fetch but — contrary to the original claim — produce no result
at all. -/
theorem do_reverse_lookup_one_result_per_matched_url (U : UrlLib)
    (registry : List RegistryEntry) (fetch : List Char → Option Inventory)
    (urls : List (List Char)) :
    ((do_reverse_lookup U registry fetch urls).1.map ReverseLookupResult.url).Perm
      (urls.filter (fun u => (matchedPackage U registry u).isSome)) := by
  have hfun : (fun g => (processGroup U registry fetch g).1.map ReverseLookupResult.url) =
      (fun g : List Char × List (List Char) => g.2) :=
    funext (fun g => processGroup_urls U registry fetch g)
  have hmap : (do_reverse_lookup U registry fetch urls).1.map ReverseLookupResult.url =
      groupUrls (buildGroups U registry urls) := by
    show ((buildGroups U registry urls).flatMap
        (fun g => (processGroup U registry fetch g).1)).map ReverseLookupResult.url = _
    rw [List.map_flatMap]
    show (buildGroups U registry urls).flatMap
        (fun g => (processGroup U registry fetch g).1.map ReverseLookupResult.url) = _
    rw [hfun]
    rfl
  rw [hmap]
  have h := buildGroups_urls_perm U registry urls []
  simp only [groupUrls, List.flatMap_nil, List.nil_append] at h
  show (groupUrls (buildGroups U registry urls)).Perm _
  simp only [groupUrls, buildGroups]
  exact h

/-! ### Concrete fixtures shared by the batch-resolution claims -/

/-- A trivial `urllib` collaborator: `urljoin` returns its second argument,
`netloc` is constant, `path` is the identity. -/
def U0 : UrlLib := ⟨fun _ b => b, fun _ => [], fun u => u⟩

def pkgP : List Char := "p".toList

def reg0 : List RegistryEntry := [⟨pkgP, "http://b".toList, "inv".toList⟩]

def urlB : List Char := "http://b/x".toList

/-- A fetch oracle whose every request fails. -/
def fetchNone : List Char → Option Inventory := fun _ => none

/-- An inventory whose only URI matches nothing we look up. -/
def inv0 : Inventory :=
  [("std:doc".toList,
    [("e".toList, ⟨"proj".toList, "1.0".toList, "http://other".toList, "-".toList⟩)])]

/-- A fetch oracle that always succeeds with `inv0`. -/
def fetchNoHit : List Char → Option Inventory := fun _ => some inv0

/-- **C1 counterexample** — with an empty registry, the single input URL
matches no package and `_do_reverse_lookup` returns no result at all, while
the claim requires one result with `package = None` for it. -/
theorem do_reverse_lookup_drops_unmatched :
    (do_reverse_lookup U0 [] fetchNone ["http://x".toList]).1 = [] := by
  decide

/-! ### C8: inventory fetch failure degrades gracefully -/

/-- **C8** — when the fetch for package `p`'s inventory fails, every URL in
`p`'s group yields a result with `package` set and the four other fields
`None`; those results appear in the batch output together with a non-fatal
warning for `p`; and any group's results depend only on the fetch at its own
inventory URL, so the failure cannot affect other packages in the batch. -/
theorem fetch_failure_degrades (U : UrlLib) (registry : List RegistryEntry)
    (fetch : List Char → Option Inventory) (urls : List (List Char))
    (p : List Char) (L : List (List Char))
    (hmem : (p, L) ∈ buildGroups U registry urls)
    (hfail : fetch (invUrlOf U registry p) = none) :
    (processGroup U registry fetch (p, L)).1 = L.map (failResult p) ∧
    (⟨p, invUrlOf U registry p⟩ : FetchWarning) ∈ (do_reverse_lookup U registry fetch urls).2 ∧
    L.map (failResult p) <:+: (do_reverse_lookup U registry fetch urls).1 ∧
    (∀ (fetch2 : List Char → Option Inventory) (q : List Char) (M : List (List Char)),
      fetch2 (invUrlOf U registry q) = fetch (invUrlOf U registry q) →
      processGroup U registry fetch2 (q, M) = processGroup U registry fetch (q, M)) := by
  have hproc : (processGroup U registry fetch (p, L)).1 = L.map (failResult p) := by
    simp only [processGroup, hfail]
  refine ⟨hproc, ?_, ?_, ?_⟩
  · show _ ∈ (buildGroups U registry urls).flatMap
      (fun g => (processGroup U registry fetch g).2)
    refine List.mem_flatMap.mpr ⟨(p, L), hmem, ?_⟩
    simp [processGroup, hfail]
  · obtain ⟨s, t, hst⟩ := List.append_of_mem hmem
    show L.map (failResult p) <:+: (buildGroups U registry urls).flatMap
      (fun g => (processGroup U registry fetch g).1)
    rw [hst, List.flatMap_append, List.flatMap_cons, hproc]
    exact ⟨s.flatMap (fun g => (processGroup U registry fetch g).1),
           t.flatMap (fun g => (processGroup U registry fetch g).1),
           by rw [List.append_assoc]⟩
  · intro fetch2 q M heq
    simp only [processGroup, heq]

/-- Witness for C8 at a concrete registry, batch and failing fetch. -/
theorem fetch_failure_degrades_witness :
    ((pkgP, [urlB]) ∈ buildGroups U0 reg0 [urlB] ∧
     fetchNone (invUrlOf U0 reg0 pkgP) = none) ∧
    ((processGroup U0 reg0 fetchNone (pkgP, [urlB])).1 = [urlB].map (failResult pkgP) ∧
     (⟨pkgP, invUrlOf U0 reg0 pkgP⟩ : FetchWarning) ∈
       (do_reverse_lookup U0 reg0 fetchNone [urlB]).2 ∧
     [urlB].map (failResult pkgP) <:+: (do_reverse_lookup U0 reg0 fetchNone [urlB]).1 ∧
     (∀ (fetch2 : List Char → Option Inventory) (q : List Char) (M : List (List Char)),
       fetch2 (invUrlOf U0 reg0 q) = fetchNone (invUrlOf U0 reg0 q) →
       processGroup U0 reg0 fetch2 (q, M) = processGroup U0 reg0 fetchNone (q, M))) :=
  ⟨⟨by decide, rfl⟩,
   fetch_failure_degrades U0 reg0 fetchNone [urlB] pkgP [urlB] (by decide) rfl⟩

/-! ### C3: "unreachable" versus "NOT FOUND" -/

/-- **C3 (amended)** — the "inventory unreachable" and "fetch succeeded but no
inventory URI matched" outcomes produce *identical* `ReverseLookupResult`
values (package set, all four other fields `None`), so a caller cannot tell
the two failure states apart from the results; the only observable difference
is the non-fatal warning emitted in the unreachable case. -/
theorem unreachable_equals_notfound (U : UrlLib) (registry : List RegistryEntry)
    (fetchF fetchS : List Char → Option Inventory) (p : List Char)
    (L : List (List Char)) (I : Inventory)
    (hfail : fetchF (invUrlOf U registry p) = none)
    (hsucc : fetchS (invUrlOf U registry p) = some I)
    (hnomatch : ∀ u ∈ L, findInvMatch (flattenInv I) u = none) :
    (processGroup U registry fetchF (p, L)).1 = (processGroup U registry fetchS (p, L)).1 ∧
    (processGroup U registry fetchF (p, L)).2 ≠ (processGroup U registry fetchS (p, L)).2 := by
  constructor
  · simp only [processGroup, hfail, hsucc]
    exact List.map_congr_left (fun u hu => by rw [hnomatch u hu])
  · simp only [processGroup, hfail, hsucc]
    simp

/-- Witness for the amended C3 at a concrete package and URL. -/
theorem unreachable_equals_notfound_witness :
    (fetchNone (invUrlOf U0 reg0 pkgP) = none ∧
     fetchNoHit (invUrlOf U0 reg0 pkgP) = some inv0 ∧
     (∀ u ∈ [urlB], findInvMatch (flattenInv inv0) u = none)) ∧
    ((processGroup U0 reg0 fetchNone (pkgP, [urlB])).1 =
       (processGroup U0 reg0 fetchNoHit (pkgP, [urlB])).1 ∧
     (processGroup U0 reg0 fetchNone (pkgP, [urlB])).2 ≠
       (processGroup U0 reg0 fetchNoHit (pkgP, [urlB])).2) :=
  ⟨⟨rfl, rfl, by decide⟩,
   unreachable_equals_notfound U0 reg0 fetchNone fetchNoHit pkgP [urlB] inv0
     rfl rfl (by decide)⟩

/-- **C3 counterexample** — for the URL `http://b/x` attributed to package
`p`, the whole-batch results under a failing fetch and under a successful
fetch whose inventory matches nothing are the *same* single package-only
result: no field differs, contradicting the claimed distinguishability. -/
theorem unreachable_notfound_results_equal :
    (do_reverse_lookup U0 reg0 fetchNone [urlB]).1 =
      (do_reverse_lookup U0 reg0 fetchNoHit [urlB]).1 ∧
    (do_reverse_lookup U0 reg0 fetchNone [urlB]).1 =
      [⟨urlB, some pkgP, none, none, none, none⟩] := by
  constructor
  · decide
  · decide

/-! ## `process_one_file` (`rev_search.py`)

File I/O is out of scope: the function takes the `readlines()` output (the
lines of the file, trailing newlines included) as input.  An unreadable file
contributes the empty line list / no replacements in the caller. -/

structure UrlReplacement where
  line_num : Nat
  matched_url : List Char
  context_old : OutputReplacementContext
  context_new : OutputReplacementContext
  inventory_url : Option (List Char)
deriving DecidableEq, Repr

/-- `str.rstrip()` (trailing whitespace). -/
def pyRstripWs (l : List Char) : List Char := pyRstrip pyIsSpace l

/-- Characters excluded by the URL token grammar
`[^\s<>"{}|\\^`\[\]]` (whitespace handled separately). -/
def urlBadChars : List Char :=
  ['<', '>', '"', '|', '\\', '^', '[', ']'] ++ [btick, Char.ofNat 123, Char.ofNat 125]

def isUrlChar (c : Char) : Bool := !(pyIsSpace c || urlBadChars.contains c)

/-- Match `https?://[^\s<>"{}|\\^`\[\]]+` at the head; returns the matched
URL and the remainder.  `s?` is greedy and cannot be rescued by backtracking
(`://` never starts with `s`). -/
def httpAt (l : List Char) : Option (List Char × List Char) :=
  match dropStart? ("http".toList) l with
  | some r =>
    let sr : List Char × List Char :=
      match r with
      | 's' :: r2 => (['s'], r2)
      | _ => ([], r)
    match dropStart? ("://".toList) sr.2 with
    | some r3 =>
      let body := r3.takeWhile isUrlChar
      if body = [] then none
      else some ("http".toList ++ sr.1 ++ "://".toList ++ body, r3.dropWhile isUrlChar)
    | none => none
  | none => none

/-- `url_pattern.findall(line)`: left-to-right non-overlapping scan; `fuel` is
instantiated with the line length (each step consumes at least one char). -/
def findUrls : Nat → List Char → List (List Char)
  | 0, _ => []
  | _ + 1, [] => []
  | fuel + 1, c :: l =>
    match httpAt (c :: l) with
    | some (url, rest) => url :: findUrls fuel rest
    | none => findUrls fuel l

/-- The `url_locations` accumulation: per punctuation-stripped URL, the
ordered `(line_num, line.rstrip())` occurrences. -/
def urlLocations (rawLines : List (List Char)) : List (List Char × List (Nat × List Char)) :=
  (rawLines.enumFrom 1).foldl (fun acc le =>
    (findUrls le.2.length le.2).foldl (fun acc2 url =>
      appendToGroup acc2 (pyRstrip isPunct url) (le.1, pyRstripWs le.2)) acc) []

/-- `url_locations[url]` (always present for result URLs). -/
def locationsGet (m : List (List Char × List (Nat × List Char))) (k : List Char) :
    List (Nat × List Char) :=
  match m.find? (fun kv => kv.1 == k) with
  | some kv => kv.2
  | none => []

/-- `all_lines[line_num - 2].rstrip() if line_num > 1 else ""`. -/
def contextBeforeOf (rawLines : List (List Char)) (ln : Nat) : List Char :=
  if 1 < ln then pyRstripWs (rawLines.getD (ln - 2) []) else []

/-- `all_lines[line_num].rstrip() if line_num < len(all_lines) else ""`. -/
def contextAfterOf (rawLines : List (List Char)) (ln : Nat) : List Char :=
  if ln < rawLines.length then pyRstripWs (rawLines.getD ln []) else []

/-- `process_one_file`, with the registry/urllib/fetch collaborators passed
through to `_do_reverse_lookup`. -/
def process_one_file (U : UrlLib) (registry : List RegistryEntry)
    (fetch : List Char → Option Inventory) (rawLines : List (List Char)) :
    List UrlReplacement :=
  let locations := urlLocations rawLines
  if locations = [] then []
  else
    let urls := locations.map (fun kv => kv.1)
    let results := (do_reverse_lookup U registry fetch urls).1
    let replaceable := (results.filter (fun r => r.package.isSome)).map
      (fun r => (r, locationsGet locations r.url))
    replaceable.flatMap (fun ri =>
      ri.2.map (fun li =>
        let context_before := contextBeforeOf rawLines li.1
        let context_after := contextAfterOf rawLines li.1
        if ri.1.rst_entry.isSome then
          let cc := compute_replacement ⟨context_before, li.2, context_after⟩ ri.1
          ⟨li.1, ri.1.url, cc.1, cc.2, ri.1.inventory_url⟩
        else
          let empty_context : OutputReplacementContext :=
            ([Unchanged context_before], [Unchanged li.2], [Unchanged context_after])
          ⟨li.1, ri.1.url, empty_context, empty_context, ri.1.inventory_url⟩))

/-! ### C9: package known, no inventory entry ⟹ no-op replacement -/

/-- **C9** — every lookup result with a package but no `rst_entry` yields, for
each recorded `(line, text)` occurrence of its URL, a `UrlReplacement` whose
`context_old` and `context_new` are the same Unchanged-only single-token
streams wrapping the unmodified context-before, target and context-after
lines. -/
theorem package_without_entry_is_noop (U : UrlLib) (registry : List RegistryEntry)
    (fetch : List Char → Option Inventory) (rawLines : List (List Char))
    (r : ReverseLookupResult) (ln : Nat) (line : List Char)
    (hr : r ∈ (do_reverse_lookup U registry fetch
      ((urlLocations rawLines).map (fun kv => kv.1))).1)
    (hpkg : r.package.isSome = true) (hent : r.rst_entry = none)
    (hloc : (ln, line) ∈ locationsGet (urlLocations rawLines) r.url) :
    (⟨ln, r.url,
      ([Unchanged (contextBeforeOf rawLines ln)], [Unchanged line],
       [Unchanged (contextAfterOf rawLines ln)]),
      ([Unchanged (contextBeforeOf rawLines ln)], [Unchanged line],
       [Unchanged (contextAfterOf rawLines ln)]),
      r.inventory_url⟩ : UrlReplacement) ∈
      process_one_file U registry fetch rawLines := by
  by_cases hemp : urlLocations rawLines = []
  · rw [hemp] at hr
    simp only [List.map_nil] at hr
    have : (do_reverse_lookup U registry fetch []).1 = [] := rfl
    rw [this] at hr
    exact absurd hr (List.not_mem_nil r)
  · unfold process_one_file
    rw [if_neg hemp]
    refine List.mem_flatMap.mpr
      ⟨(r, locationsGet (urlLocations rawLines) r.url), ?_, ?_⟩
    · exact List.mem_map.mpr
        ⟨r, List.mem_filter.mpr ⟨hr, hpkg⟩, rfl⟩
    · refine List.mem_map.mpr ⟨(ln, line), hloc, ?_⟩
      simp only [hent, Option.isSome_none, Bool.false_eq_true, if_false]

def lines9 : List (List Char) := ["see http://b/x ok\n".toList]

def res9 : ReverseLookupResult := ⟨urlB, some pkgP, none, none, none, none⟩

set_option maxRecDepth 40000 in
/-- Witness for C9: a one-line file whose URL resolves to a package with no
matching inventory entry yields the no-op replacement record. -/
theorem package_without_entry_is_noop_witness :
    (res9 ∈ (do_reverse_lookup U0 reg0 fetchNoHit
        ((urlLocations lines9).map (fun kv => kv.1))).1 ∧
     res9.package.isSome = true ∧ res9.rst_entry = none ∧
     (1, "see http://b/x ok".toList) ∈ locationsGet (urlLocations lines9) res9.url) ∧
    (⟨1, res9.url,
      ([Unchanged (contextBeforeOf lines9 1)], [Unchanged ("see http://b/x ok".toList)],
       [Unchanged (contextAfterOf lines9 1)]),
      ([Unchanged (contextBeforeOf lines9 1)], [Unchanged ("see http://b/x ok".toList)],
       [Unchanged (contextAfterOf lines9 1)]),
      res9.inventory_url⟩ : UrlReplacement) ∈ process_one_file U0 reg0 fetchNoHit lines9 :=
  ⟨⟨by decide, rfl, rfl, by decide⟩,
   package_without_entry_is_noop U0 reg0 fetchNoHit lines9 res9 1
     ("see http://b/x ok".toList) (by decide) rfl rfl (by decide)⟩

end IntersphinxRegistry
